import Mathlib

/-!
Verification of `notebook_to_html_report` (single module
`notebook_to_html_report/__init__.py`).

The development shallowly embeds the module's logic:

* Python strings are modelled as `List Char`; `str.replace`, `str.split("\n")`
  and `"\n".join` are modelled by executable char-level functions with Python's
  semantics (leftmost non-overlapping replacement; split keeping empty pieces).
* the HTML tree manipulated through BeautifulSoup is modelled by the mutual
  inductives `Html`/`HtmlList`; `findAll("div", {"class": c}) + decompose`,
  `findAll + replaceWithChildren` and the table-attribute loop are modelled by
  the recursive tree transformations `removeAllF`, `unwrapAllF`,
  `stripTablesF` (a `findAll` snapshot followed by per-node mutation is
  equivalent to the one-pass recursive transformation, because none of the
  mutations changes the tag or the attributes of any surviving node);
* the filesystem is an association list from paths to file contents, and the
  `Report` methods are state-passing functions that also emit the list of
  write/unlink events they perform;
* external collaborators (kernel discovery, the nbconvert execution engine,
  the HTML exporter, the HTML parser/serializer) are parameters of the
  functions that call them, as the specification directs.
-/

namespace NotebookReport

/-! ### Char-level models of the Python string operations used by the module -/

/-- Python `s.split(sep)` for a one-character separator: keeps empty pieces,
`"".split(sep) = [""]`. -/
def splitOnP (p : Char → Bool) : List Char → List (List Char)
  | [] => [[]]
  | c :: rest =>
    if p c then [] :: splitOnP p rest
    else
      match splitOnP p rest with
      | [] => [[c]]
      | l :: ls => (c :: l) :: ls

/-- `str.split("\n")`. -/
def splitNl (s : List Char) : List (List Char) :=
  splitOnP (fun c => c == '\n') s

/-- `sep.join(pieces)` for a one-character separator. -/
def joinC (sep : Char) : List (List Char) → List Char
  | [] => []
  | [l] => l
  | l :: ls => l ++ sep :: joinC sep ls

/-- `"\n".join(pieces)`. -/
def joinNl (ls : List (List Char)) : List Char :=
  joinC '\n' ls

/-- `"\n".join([s for s in text.split("\n") if s])` — the blank-line removal
performed at the end of `Report.clean_html`. -/
def removeBlankLines (s : List Char) : List Char :=
  joinNl ((splitNl s).filter (fun l => !l.isEmpty))

/-- Python `str.replace(pat, rep)`: leftmost non-overlapping replacement of
every occurrence.  The fuel argument makes the recursion structural; one unit
of fuel is spent per consumed character, so `s.length` fuel always suffices. -/
def pyReplaceFuel (pat rep : List Char) : Nat → List Char → List Char
  | _, [] => []
  | 0, s => s
  | fuel + 1, c :: rest =>
    if pat.isPrefixOf (c :: rest) then
      rep ++ pyReplaceFuel pat rep fuel (rest.drop (pat.length - 1))
    else c :: pyReplaceFuel pat rep fuel rest

/-- Python `s.replace(pat, rep)` (for a nonempty pattern). -/
def pyReplace (pat rep s : List Char) : List Char :=
  pyReplaceFuel pat rep s.length s

/-- `name.replace("_", " ")`. -/
def underscoreToSpace (s : List Char) : List Char :=
  s.map (fun c => if c == '_' then ' ' else c)

/-- Decidable version of "no occurrence of `pat` in `s ++ t` starts strictly
inside `s`" (the side condition under which `s.replace` leaves an appended
prefix `s` untouched). -/
def noEarlyOcc (pat s t : List Char) : Bool :=
  s.tails.all (fun b => b.isEmpty || !(pat.isPrefixOf (b ++ t)))

/-! ### Kernel resolver (module-level function `kernel`) -/

/-- `kernel(required_kernel)` from the source.  The environment-dependent set
`jupyter_client.kernelspec.find_kernel_specs().keys()` is injected as the
parameter `availableKernels`, as §9 of the specification directs.  The
function is total: it never raises. -/
def kernel (availableKernels : List String) (requiredKernel : String) : String :=
  if requiredKernel ∈ availableKernels then requiredKernel else "python3"

/-! ### The `Report` constructor -/

/-- `pathlib.Path(p).name`: the final path component. -/
def baseName (p : List Char) : List Char :=
  (splitOnP (fun c => c == '/') p).getLastD []

/-- `str(pathlib.Path(p).parent)` (approximate: enough for relative paths of
the usual `dir/file` shape; the field it feeds is only used as the working
directory handed to the external execution engine). -/
def parentOf (p : List Char) : List Char :=
  match (splitOnP (fun c => c == '/') p).dropLast with
  | [] => ['.']
  | cs => joinC '/' cs

/-- `path.name.replace("ipynb", "html")` — note: every occurrence of the
substring `"ipynb"` is replaced, not just the extension. -/
def reportFileName (name : List Char) : List Char :=
  pyReplace "ipynb".data "html".data name

/-- `Path(report_folder) / path.name.replace("ipynb", "html")`. -/
def reportPathChars (folder name : List Char) : List Char :=
  folder ++ '/' :: reportFileName name

/-- `path.name.replace(".ipynb", "").replace("_", " ")` — the default report
title. -/
def titleOf (name : List Char) : List Char :=
  underscoreToSpace (pyReplace ".ipynb".data [] name)

/-- The state set up by `Report.__init__`. -/
structure Report where
  notebook_path : String
  notebook_folder : String
  notebook : String
  temporary_notebook : String
  report_path : String
  title : String
deriving DecidableEq

/-- `Report.__init__(notebook_path, report_folder)`. -/
def Report.init (notebook_path report_folder : String) : Report :=
  let name := baseName notebook_path.data
  { notebook_path := notebook_path
    notebook_folder := String.mk (parentOf notebook_path.data)
    notebook := String.mk name
    temporary_notebook := String.mk ("/tmp".data ++ '/' :: name)
    report_path := String.mk (reportPathChars report_folder.data name)
    title := String.mk (titleOf name) }

/-! ### The HTML tree model (BeautifulSoup tree) -/

mutual

/-- An HTML node: a text node or an element with a tag name, an attribute
list and children.  (Mutual with `HtmlList` so that all tree recursions are
structural.) -/
inductive Html where
  | text (s : String)
  | elem (tag : String) (attrs : List (String × String)) (children : HtmlList)

/-- A forest of HTML nodes (the children of an element, or the parsed
document's top level). -/
inductive HtmlList where
  | nil
  | cons (head : Html) (tail : HtmlList)

end

/-- Build an `HtmlList` from a `List Html`. -/
def HtmlList.ofList : List Html → HtmlList
  | [] => .nil
  | h :: t => .cons h (HtmlList.ofList t)

/-- Concatenation of forests. -/
def HtmlList.append : HtmlList → HtmlList → HtmlList
  | .nil, ys => ys
  | .cons x xs, ys => .cons x (HtmlList.append xs ys)

/-- Lookup of an attribute value (`tag.attrs` is a dict in BeautifulSoup;
modelled as the first binding of the key in the association list). -/
def attrLookup (k : String) : List (String × String) → Option String
  | [] => none
  | (k', v) :: rest => if k' == k then some v else attrLookup k rest

/-- `"id" in tag.attrs.keys()`. -/
def hasKey (k : String) (attrs : List (String × String)) : Bool :=
  attrs.any (fun kv => kv.1 == k)

/-- The whitespace-separated class tokens of an element, as BeautifulSoup's
multi-valued `class` attribute splits them. -/
def classTokens (attrs : List (String × String)) : List (List Char) :=
  splitOnP (fun c => c == ' ' || c == '\n' || c == '\t' || c == '\r')
    ((attrLookup "class" attrs).getD "").data

/-- The match performed by `findAll("div", {"class": cl})`: a `div` element
one of whose class tokens is `cl`. -/
def divWithClass (cl : String) (tag : String) (attrs : List (String × String)) : Bool :=
  tag == "div" && (classTokens attrs).contains cl.data

/-- `cs.any (divWithClass · tag attrs)`: matched by one of the listed
classes. -/
def anyDivClass (cs : List String) (tag : String) (attrs : List (String × String)) : Bool :=
  cs.any (fun c => divWithClass c tag attrs)

/-- `for div in soup.findAll(..): div.decompose()` — every node matched by
`p` is removed together with its whole subtree.  (`findAll` snapshots then
mutates; since removed subtrees contribute nothing and `p` only looks at tag
and attributes, the snapshot loop equals this one-pass recursion.) -/
def removeAllF (p : String → List (String × String) → Bool) : HtmlList → HtmlList
  | .nil => .nil
  | .cons (.text s) rest => .cons (.text s) (removeAllF p rest)
  | .cons (.elem t a c) rest =>
    if p t a then removeAllF p rest
    else .cons (.elem t a (removeAllF p c)) (removeAllF p rest)

/-- `for tag in soup.findAll(..): tag.replaceWithChildren()` — every node
matched by `p` is replaced, in place, by its children.  (`findAll` collects
nested matches too, and unwrapping changes no tag or attribute, so the
snapshot loop equals this one-pass recursion.) -/
def unwrapAllF (p : String → List (String × String) → Bool) : HtmlList → HtmlList
  | .nil => .nil
  | .cons (.text s) rest => .cons (.text s) (unwrapAllF p rest)
  | .cons (.elem t a c) rest =>
    if p t a then HtmlList.append (unwrapAllF p c) (unwrapAllF p rest)
    else .cons (.elem t a (unwrapAllF p c)) (unwrapAllF p rest)

/-- `for tag in soup.findAll("table"): if "id" not in tag.attrs: tag.attrs =
None` — every table element without an `id` attribute loses all its
attributes (`attrs = None` serializes as no attributes at all). -/
def stripTablesF : HtmlList → HtmlList
  | .nil => .nil
  | .cons (.text s) rest => .cons (.text s) (stripTablesF rest)
  | .cons (.elem t a c) rest =>
    if t == "table" && !hasKey "id" a then
      .cons (.elem t [] (stripTablesF c)) (stripTablesF rest)
    else .cons (.elem t a (stripTablesF c)) (stripTablesF rest)

/-- No node of the forest is matched by `p`. -/
def noMatchF (p : String → List (String × String) → Bool) : HtmlList → Bool
  | .nil => true
  | .cons (.text _) rest => noMatchF p rest
  | .cons (.elem t a c) rest => !p t a && noMatchF p c && noMatchF p rest

/-- Some element node of the forest has exactly this tag and attribute
list. -/
def nodeOccursF (tg : String) (ats : List (String × String)) : HtmlList → Bool
  | .nil => false
  | .cons (.text _) rest => nodeOccursF tg ats rest
  | .cons (.elem t a c) rest =>
    (t == tg && a == ats) || nodeOccursF tg ats c || nodeOccursF tg ats rest

/-- Every table element of the forest either has an `id` attribute or has no
attributes at all. -/
def tablesNormF : HtmlList → Bool
  | .nil => true
  | .cons (.text _) rest => tablesNormF rest
  | .cons (.elem t a c) rest =>
    (!(t == "table") || hasKey "id" a || a.isEmpty) && tablesNormF c && tablesNormF rest

/-- Some element node of the forest (of any tag) carries the class `cl`. -/
def anyElemWithClassF (cl : String) : HtmlList → Bool
  | .nil => false
  | .cons (.text _) rest => anyElemWithClassF cl rest
  | .cons (.elem _ a c) rest =>
    (classTokens a).contains cl.data || anyElemWithClassF cl c || anyElemWithClassF cl rest

/-- `classes_to_remove` from `Report.clean_html`. -/
def classes_to_remove : List String := ["output_text", "prompt"]

/-- `classes_to_replace` from `Report.clean_html`. -/
def classes_to_replace : List String :=
  ["border-box-sizing", "container", "cell", "inner_cell", "rendered_html",
   "output_prompt", "output_wrapper", "output", "output_area"]

/-- The first loop of `Report.clean_html`: one `decompose` pass per class. -/
def removeClassesPass (cs : List String) (t : HtmlList) : HtmlList :=
  cs.foldl (fun acc c => removeAllF (divWithClass c) acc) t

/-- The second loop of `Report.clean_html`: one `replaceWithChildren` pass
per class. -/
def unwrapClassesPass (cs : List String) (t : HtmlList) : HtmlList :=
  cs.foldl (fun acc c => unwrapAllF (divWithClass c) acc) t

/-- The tree transformation performed by `Report.clean_html`: the decompose
loop over `classes_to_remove`, then the unwrap loop over
`classes_to_replace`, then the table-attribute normalization. -/
def cleanHtmlF (t : HtmlList) : HtmlList :=
  stripTablesF (unwrapClassesPass classes_to_replace (removeClassesPass classes_to_remove t))

/-- The shape `Report.clean_html` establishes: no div carries a deletion-set
class, no div carries an unwrap-set class, and every table either has an
`id` or has no attributes. -/
def cleanedInvF (t : HtmlList) : Bool :=
  noMatchF (anyDivClass classes_to_remove) t &&
    noMatchF (anyDivClass classes_to_replace) t && tablesNormF t

/-- A non-`div` element carrying the raw-text-output class: the cleaning
loops call `findAll("div", ..)`, so this element is out of their reach. -/
def exSpan : HtmlList :=
  .cons (.elem "span" [("class", "output_text")] .nil) .nil

/-- A table with an explicit `id` whose inner table carries the
auto-generated dataframe styling class. -/
def exTable : HtmlList :=
  .cons (.elem "table" [("id", "t")]
    (.cons (.elem "table" [("class", "dataframe")] .nil) .nil)) .nil

/-! ### Filesystem / pipeline state model -/

/-- The failures the pipeline can propagate: a missing file
(`FileNotFoundError`), an unreadable notebook file, or an error raised by
the external execution engine while running a cell. -/
inductive Err where
  | fileNotFound
  | parseError
  | execError (msg : String)
deriving DecidableEq

/-- The notebook document, opaque except for the two metadata fields the
module consults (`metadata.kernelspec.name` and the optional
`metadata.title`) and its cells. -/
structure Notebook where
  kernelspecName : String
  title : Option String
  cells : List String
deriving DecidableEq

/-- A file on disk: a notebook document or a text (HTML) file. -/
inductive FileContent where
  | nb (n : Notebook)
  | text (s : String)
deriving DecidableEq

/-- The filesystem: an association list from paths to contents. -/
abbrev FS := List (String × FileContent)

/-- Content stored at a path, if any. -/
def lookupFS (fs : FS) (p : String) : Option FileContent :=
  match fs with
  | [] => none
  | (q, c) :: rest => if q == p then some c else lookupFS rest p

/-- Delete a path (`Path.unlink`, as far as the final state is concerned). -/
def eraseFS (p : String) (fs : FS) : FS :=
  fs.filter (fun kv => !(kv.1 == p))

/-- Write a path (`write_text` / `codecs.open(...).write`, as far as the
final state is concerned). -/
def insertFS (p : String) (c : FileContent) (fs : FS) : FS :=
  (p, c) :: eraseFS p fs

/-- The externally visible filesystem actions a method performs, in order.
A write records the encoding it was requested with (`none` for
`Path.write_text` and `nbformat.write`, which use the platform default;
`some "utf-8"` for `codecs.open(path, "w", encoding="utf-8")`). -/
inductive FsEvent where
  | write (path : String) (content : FileContent) (encoding : Option String)
  | unlink (path : String)
deriving DecidableEq

/-- Title resolution in `Report.notebook_to_report`: the executed notebook's
`metadata.title` if present, else the filename-derived default computed by
the constructor. -/
def resolveTitle (notebook : Notebook) (defaultTitle : String) : String :=
  match notebook.title with
  | some t => t
  | none => defaultTitle

/-- `Report.execute_notebook`.  The external execution engine
(`ExecutePreprocessor(timeout=.., kernel_name=.., shutdown_kernel=
"immediate", startup_timeout=300).preprocess`) is the injected `preprocess`
parameter; its failure value is whatever error a cell raised.  `version` and
`timeout` only configure the external collaborators.  The source re-raises a
`FileNotFoundError` from `nbformat.read` unchanged and catches nothing
else. -/
def Report.execute_notebook (availableKernels : List String)
    (preprocess : Notebook → String → Except Err Notebook)
    (r : Report) (version timeout : Nat) (fs : FS) :
    Except Err Unit × FS × List FsEvent :=
  match lookupFS fs r.notebook_path with
  | none => (.error .fileNotFound, fs, [])
  | some (.text _) => (.error .parseError, fs, [])
  | some (.nb notebook) =>
    let kernel_name := kernel availableKernels notebook.kernelspecName
    match preprocess notebook kernel_name with
    | .error e => (.error e, fs, [])
    | .ok executed =>
      (.ok (), insertFS r.temporary_notebook (.nb executed) fs,
        [.write r.temporary_notebook (.nb executed) none])

/-- `Report.notebook_to_report`.  The HTML export engine
(`HTMLExporter.from_notebook_node`, with whatever template configuration the
optional `template_path` installed) is the injected `exporter` parameter,
mapping the executed notebook and the resolved title (passed through
`resources.metadata.name`) to the HTML body.  On the success path the body
is written verbatim to the report path and then the temporary notebook is
unlinked. -/
def Report.notebook_to_report (exporter : Notebook → String → String)
    (r : Report) (version : Nat) (template_path : Option String) (fs : FS) :
    Except Err Unit × FS × List FsEvent :=
  match lookupFS fs r.temporary_notebook with
  | none => (.error .fileNotFound, fs, [])
  | some (.text _) => (.error .parseError, fs, [])
  | some (.nb notebook) =>
    let title := resolveTitle notebook r.title
    let body := exporter notebook title
    (.ok (),
      eraseFS r.temporary_notebook (insertFS r.report_path (.text body) fs),
      [.write r.report_path (.text body) none, .unlink r.temporary_notebook])

/-- `Report.clean_html`.  The external HTML parser and serializer
(`BeautifulSoup(html, "html.parser")` and `str(light_html)`) are the
injected `parse`/`serialize` parameters; the tree transformation between
them is `cleanHtmlF`, the blank-line pass is `removeBlankLines`, and the
result is written back to the report path through
`codecs.open(path, "w", encoding="utf-8")`. -/
def Report.clean_html (parse : String → HtmlList) (serialize : HtmlList → String)
    (r : Report) (fs : FS) : Except Err Unit × FS × List FsEvent :=
  match lookupFS fs r.report_path with
  | none => (.error .fileNotFound, fs, [])
  | some (.nb _) => (.error .parseError, fs, [])
  | some (.text content) =>
    let light_html := String.mk (removeBlankLines (serialize (cleanHtmlF (parse content))).data)
    (.ok (), insertFS r.report_path (.text light_html) fs,
      [.write r.report_path (.text light_html) (some "utf-8")])

/-! ### Lemmas about the char-level string operations -/

theorem splitOnP_ne_nil (p : Char → Bool) (s : List Char) : splitOnP p s ≠ [] := by
  cases s with
  | nil => simp [splitOnP]
  | cons c rest =>
    by_cases h : p c
    · simp [splitOnP, h]
    · cases hs : splitOnP p rest <;> simp [splitOnP, h, hs]

theorem splitOnP_sep_not_mem (p : Char → Bool) :
    ∀ s, ∀ l ∈ splitOnP p s, ∀ c ∈ l, p c = false
  | [] => by simp [splitOnP]
  | c :: rest => by
    intro l hl d hd
    by_cases h : p c
    · simp only [splitOnP, h, if_true] at hl
      rcases List.mem_cons.mp hl with h1 | h1
      · subst h1; simp at hd
      · exact splitOnP_sep_not_mem p rest l h1 d hd
    · simp only [splitOnP, h, if_false] at hl
      cases hs : splitOnP p rest with
      | nil => exact absurd hs (splitOnP_ne_nil p rest)
      | cons l0 ls =>
        rw [hs] at hl
        rcases List.mem_cons.mp hl with h1 | h1
        · subst h1
          rcases List.mem_cons.mp hd with h2 | h2
          · subst h2; simpa using h
          · exact splitOnP_sep_not_mem p rest l0 (by rw [hs]; exact List.mem_cons_self l0 ls) d h2
        · exact splitOnP_sep_not_mem p rest l (by rw [hs]; exact List.mem_cons_of_mem l0 h1) d hd

theorem splitOnP_eq_single (p : Char → Bool) :
    ∀ s, (∀ c ∈ s, p c = false) → splitOnP p s = [s]
  | [], _ => rfl
  | c :: rest, h => by
    have hc : p c = false := h c (by simp)
    have ih := splitOnP_eq_single p rest (fun x hx => h x (by simp [hx]))
    simp [splitOnP, hc, ih]

theorem splitOnP_append_sep (p : Char → Bool) (sep : Char) (hsep : p sep = true) :
    ∀ x r, (∀ c ∈ x, p c = false) → splitOnP p (x ++ sep :: r) = x :: splitOnP p r
  | [], r, _ => by simp [splitOnP, hsep]
  | c :: x', r, h => by
    have hc : p c = false := h c (by simp)
    have ih := splitOnP_append_sep p sep hsep x' r (fun d hd => h d (by simp [hd]))
    simp [splitOnP, hc, ih]

theorem splitOnP_joinC (p : Char → Bool) (sep : Char) (hsep : p sep = true) :
    ∀ L, L ≠ [] → (∀ l ∈ L, ∀ c ∈ l, p c = false) → splitOnP p (joinC sep L) = L
  | [], hne, _ => absurd rfl hne
  | [x], _, h => by
    have := splitOnP_eq_single p x (h x (by simp))
    simpa [joinC] using this
  | x :: y :: L', _, h => by
    have hx : ∀ c ∈ x, p c = false := h x (by simp)
    have ih := splitOnP_joinC p sep hsep (y :: L') (by simp)
      (fun l hl => h l (List.mem_cons_of_mem x hl))
    have hj : joinC sep (x :: y :: L') = x ++ sep :: joinC sep (y :: L') := rfl
    rw [hj, splitOnP_append_sep p sep hsep x _ hx, ih]

theorem filter_splitNl_clean (s : List Char)
    {l0 : List Char} {ls : List (List Char)}
    (hL : (splitNl s).filter (fun l => !l.isEmpty) = l0 :: ls) :
    ∀ l ∈ l0 :: ls, ∀ c ∈ l, (fun c => c == '\n') c = false := by
  intro l hl c hc
  have hmem' : l ∈ (splitNl s).filter (fun l => !l.isEmpty) := by rw [hL]; exact hl
  exact splitOnP_sep_not_mem _ s l (List.mem_of_mem_filter hmem') c hc

theorem splitNl_removeBlankLines (s : List Char)
    {l0 : List Char} {ls : List (List Char)}
    (hL : (splitNl s).filter (fun l => !l.isEmpty) = l0 :: ls) :
    splitNl (removeBlankLines s) = l0 :: ls := by
  have h := splitOnP_joinC (fun c => c == '\n') '\n' (by simp) (l0 :: ls) (by simp)
    (filter_splitNl_clean s hL)
  rw [removeBlankLines, hL]
  exact h

theorem removeBlankLines_no_blank (s : List Char) :
    removeBlankLines s = [] ∨
      (splitNl (removeBlankLines s)).all (fun l => !l.isEmpty) = true := by
  cases hL : (splitNl s).filter (fun l => !l.isEmpty) with
  | nil => left; simp [removeBlankLines, hL, joinNl, joinC]
  | cons l0 ls =>
    right
    rw [splitNl_removeBlankLines s hL]
    refine List.all_eq_true.mpr ?_
    intro l hl
    have hmem' : l ∈ (splitNl s).filter (fun l => !l.isEmpty) := by rw [hL]; exact hl
    exact (List.mem_filter.mp hmem').2

theorem removeBlankLines_idem (s : List Char) :
    removeBlankLines (removeBlankLines s) = removeBlankLines s := by
  cases hL : (splitNl s).filter (fun l => !l.isEmpty) with
  | nil =>
    simp only [removeBlankLines, hL]
    rfl
  | cons l0 ls =>
    have hfilter : (l0 :: ls).filter (fun l => !l.isEmpty) = l0 :: ls := by
      apply List.filter_eq_self.mpr
      intro l hl
      have hmem' : l ∈ (splitNl s).filter (fun l => !l.isEmpty) := by rw [hL]; exact hl
      exact (List.mem_filter.mp hmem').2
    conv_lhs => rw [removeBlankLines, splitNl_removeBlankLines s hL, hfilter]
    rw [removeBlankLines, hL]

theorem pyReplaceFuel_cons_neg (pat rep : List Char) (f : Nat) (c : Char) (rest : List Char)
    (hc : pat.isPrefixOf (c :: rest) = false) :
    pyReplaceFuel pat rep (f + 1) (c :: rest) = c :: pyReplaceFuel pat rep f rest := by
  simp [pyReplaceFuel, hc]

theorem pyReplaceFuel_append (pat rep : List Char) :
    ∀ (s t : List Char) (f : Nat), s.length ≤ f →
      (∀ b, b <:+ s → b ≠ [] → pat.isPrefixOf (b ++ t) = false) →
      pyReplaceFuel pat rep f (s ++ t) = s ++ pyReplaceFuel pat rep (f - s.length) t
  | [], t, f, _, _ => by simp
  | c :: s', t, f, hf, h => by
    cases f with
    | zero => simp at hf
    | succ f' =>
      have hc : pat.isPrefixOf (c :: (s' ++ t)) = false := by
        have := h (c :: s') (List.suffix_refl _) (by simp)
        simpa using this
      have ih := pyReplaceFuel_append pat rep s' t f' (by simpa using hf)
        (fun b hb hne => h b (hb.trans (List.suffix_cons c s')) hne)
      rw [show (c :: s') ++ t = c :: (s' ++ t) from rfl,
        pyReplaceFuel_cons_neg pat rep f' c (s' ++ t) hc, ih]
      simp [List.length_cons, Nat.succ_sub_succ]

theorem pyReplace_append (pat rep s t : List Char)
    (h : ∀ b, b <:+ s → b ≠ [] → pat.isPrefixOf (b ++ t) = false) :
    pyReplace pat rep (s ++ t) = s ++ pyReplace pat rep t := by
  have := pyReplaceFuel_append pat rep s t (s ++ t).length (by simp) h
  simpa [pyReplace, List.length_append, Nat.add_sub_cancel_left] using this

theorem noEarlyOcc_spec (pat s t : List Char) (h : noEarlyOcc pat s t = true) :
    ∀ b, b <:+ s → b ≠ [] → pat.isPrefixOf (b ++ t) = false := by
  intro b hb hne
  have hmem : b ∈ s.tails := (List.mem_tails _ _).mpr hb
  have := List.all_eq_true.mp h b hmem
  rcases Bool.or_eq_true_iff.mp this with h1 | h1
  · exact absurd (List.isEmpty_iff.mp h1) hne
  · simpa using h1

theorem reportFileName_stem (stem : List Char)
    (h : noEarlyOcc "ipynb".data stem ".ipynb".data = true) :
    reportFileName (stem ++ ".ipynb".data) = stem ++ ".html".data := by
  have := pyReplace_append "ipynb".data "html".data stem ".ipynb".data
    (noEarlyOcc_spec _ _ _ h)
  rw [reportFileName, this]
  have : pyReplace "ipynb".data "html".data ".ipynb".data = ".html".data := by decide
  rw [this]

theorem titleOf_stem (stem : List Char)
    (h : noEarlyOcc ".ipynb".data stem ".ipynb".data = true) :
    titleOf (stem ++ ".ipynb".data) = underscoreToSpace stem := by
  have hrepl := pyReplace_append ".ipynb".data [] stem ".ipynb".data
    (noEarlyOcc_spec _ _ _ h)
  have hpat : pyReplace ".ipynb".data [] ".ipynb".data = [] := by decide
  rw [titleOf, hrepl, hpat, List.append_nil]

/-! ### Lemmas about the filesystem model -/

theorem lookupFS_insert_self (p : String) (c : FileContent) (fs : FS) :
    lookupFS (insertFS p c fs) p = some c := by
  simp [insertFS, lookupFS]

theorem lookupFS_erase_self (p : String) (fs : FS) :
    lookupFS (eraseFS p fs) p = none := by
  induction fs with
  | nil => rfl
  | cons kv rest ih =>
    by_cases h : kv.1 == p
    · simpa [eraseFS, h] using ih
    · simpa [eraseFS, lookupFS, h] using ih

theorem lookupFS_erase_ne (p q : String) (fs : FS) (h : q ≠ p) :
    lookupFS (eraseFS q fs) p = lookupFS fs p := by
  induction fs with
  | nil => rfl
  | cons kv rest ih =>
    by_cases hk : kv.1 == q
    · have : ¬(kv.1 == p) = true := by
        simp only [beq_iff_eq] at hk ⊢
        rw [hk]; exact fun hc => h hc
      simp [eraseFS, lookupFS, hk, this] at ih ⊢
      simpa [eraseFS] using ih
    · simp only [eraseFS, List.filter_cons] at ih ⊢
      simp only [hk]
      by_cases hp : kv.1 == p <;> simp [lookupFS, hp] <;> simpa [eraseFS] using ih

theorem lookupFS_insert_ne (p q : String) (c : FileContent) (fs : FS) (h : q ≠ p) :
    lookupFS (insertFS q c fs) p = lookupFS fs p := by
  have : ¬(q == p) = true := by simpa using h
  simp [insertFS, lookupFS, this]
  exact lookupFS_erase_ne p q fs h

/-! ### Lemmas about the tree transformations -/

theorem HtmlList.append_assoc :
    ∀ x y z : HtmlList, (x.append y).append z = x.append (y.append z)
  | .nil, _, _ => rfl
  | .cons h t, y, z => by
    simp [HtmlList.append, HtmlList.append_assoc t y z]

theorem unwrapAllF_append (p : String → List (String × String) → Bool) :
    ∀ x y, unwrapAllF p (x.append y) = (unwrapAllF p x).append (unwrapAllF p y)
  | .nil, _ => rfl
  | .cons (.text s) rest, y => by
    simp [HtmlList.append, unwrapAllF, unwrapAllF_append p rest y]
  | .cons (.elem tg a c) rest, y => by
    cases h : p tg a
    · simp [HtmlList.append, unwrapAllF, h, unwrapAllF_append p rest y]
    · simp [HtmlList.append, unwrapAllF, h, unwrapAllF_append p rest y,
        HtmlList.append_assoc]

theorem remove_remove (p q : String → List (String × String) → Bool) :
    ∀ t, removeAllF p (removeAllF q t) = removeAllF (fun tg a => q tg a || p tg a) t
  | .nil => rfl
  | .cons (.text s) rest => by simp [removeAllF, remove_remove p q rest]
  | .cons (.elem tg a c) rest => by
    cases hq : q tg a
    · cases hp : p tg a
      · simp [removeAllF, hq, hp, remove_remove p q c, remove_remove p q rest]
      · simp [removeAllF, hq, hp, remove_remove p q rest]
    · simp [removeAllF, hq, remove_remove p q rest]

theorem unwrap_unwrap (p q : String → List (String × String) → Bool) :
    ∀ t, unwrapAllF p (unwrapAllF q t) = unwrapAllF (fun tg a => q tg a || p tg a) t
  | .nil => rfl
  | .cons (.text s) rest => by simp [unwrapAllF, unwrap_unwrap p q rest]
  | .cons (.elem tg a c) rest => by
    cases hq : q tg a
    · cases hp : p tg a
      · simp [unwrapAllF, hq, hp, unwrap_unwrap p q c, unwrap_unwrap p q rest]
      · simp [unwrapAllF, hq, hp, unwrap_unwrap p q c, unwrap_unwrap p q rest]
    · simp [unwrapAllF, hq, unwrapAllF_append, unwrap_unwrap p q c,
        unwrap_unwrap p q rest]

theorem removeAllF_false : ∀ t, removeAllF (fun _ _ => false) t = t
  | .nil => rfl
  | .cons (.text s) rest => by simp [removeAllF, removeAllF_false rest]
  | .cons (.elem tg a c) rest => by
    simp [removeAllF, removeAllF_false c, removeAllF_false rest]

theorem unwrapAllF_false : ∀ t, unwrapAllF (fun _ _ => false) t = t
  | .nil => rfl
  | .cons (.text s) rest => by simp [unwrapAllF, unwrapAllF_false rest]
  | .cons (.elem tg a c) rest => by
    simp [unwrapAllF, unwrapAllF_false c, unwrapAllF_false rest]

theorem anyDivClass_nil : anyDivClass [] = fun _ _ => false := by
  funext tg a; simp [anyDivClass]

theorem anyDivClass_cons (c : String) (cs : List String) :
    (fun tg a => divWithClass c tg a || anyDivClass cs tg a) = anyDivClass (c :: cs) := by
  funext tg a; simp [anyDivClass]

theorem removeClassesPass_eq :
    ∀ (cs : List String) (t : HtmlList), removeClassesPass cs t = removeAllF (anyDivClass cs) t
  | [], t => by
    simp [removeClassesPass, anyDivClass_nil, removeAllF_false]
  | c :: cs, t => by
    have ih := removeClassesPass_eq cs (removeAllF (divWithClass c) t)
    calc removeClassesPass (c :: cs) t
        = removeClassesPass cs (removeAllF (divWithClass c) t) := by
          simp [removeClassesPass]
      _ = removeAllF (anyDivClass cs) (removeAllF (divWithClass c) t) := ih
      _ = removeAllF (anyDivClass (c :: cs)) t := by
          rw [remove_remove, anyDivClass_cons]

theorem unwrapClassesPass_eq :
    ∀ (cs : List String) (t : HtmlList), unwrapClassesPass cs t = unwrapAllF (anyDivClass cs) t
  | [], t => by
    simp [unwrapClassesPass, anyDivClass_nil, unwrapAllF_false]
  | c :: cs, t => by
    have ih := unwrapClassesPass_eq cs (unwrapAllF (divWithClass c) t)
    calc unwrapClassesPass (c :: cs) t
        = unwrapClassesPass cs (unwrapAllF (divWithClass c) t) := by
          simp [unwrapClassesPass]
      _ = unwrapAllF (anyDivClass cs) (unwrapAllF (divWithClass c) t) := ih
      _ = unwrapAllF (anyDivClass (c :: cs)) t := by
          rw [unwrap_unwrap, anyDivClass_cons]

theorem noMatchF_append (p : String → List (String × String) → Bool) :
    ∀ x y, noMatchF p (x.append y) = (noMatchF p x && noMatchF p y)
  | .nil, _ => rfl
  | .cons (.text s) rest, y => by
    simp [HtmlList.append, noMatchF, noMatchF_append p rest y]
  | .cons (.elem tg a c) rest, y => by
    simp [HtmlList.append, noMatchF, noMatchF_append p rest y, Bool.and_assoc]

theorem removeAllF_noMatch (p : String → List (String × String) → Bool) :
    ∀ t, noMatchF p (removeAllF p t) = true
  | .nil => rfl
  | .cons (.text s) rest => by
    simp [removeAllF, noMatchF, removeAllF_noMatch p rest]
  | .cons (.elem tg a c) rest => by
    cases h : p tg a
    · simp [removeAllF, h, noMatchF, removeAllF_noMatch p c, removeAllF_noMatch p rest]
    · simp [removeAllF, h, removeAllF_noMatch p rest]

theorem unwrapAllF_noMatch (p : String → List (String × String) → Bool) :
    ∀ t, noMatchF p (unwrapAllF p t) = true
  | .nil => rfl
  | .cons (.text s) rest => by
    simp [unwrapAllF, noMatchF, unwrapAllF_noMatch p rest]
  | .cons (.elem tg a c) rest => by
    cases h : p tg a
    · simp [unwrapAllF, h, noMatchF, unwrapAllF_noMatch p c, unwrapAllF_noMatch p rest]
    · simp [unwrapAllF, h, noMatchF_append, unwrapAllF_noMatch p c,
        unwrapAllF_noMatch p rest]

theorem noMatchF_mono (p q : String → List (String × String) → Bool)
    (himp : ∀ tg a, p tg a = true → q tg a = true) :
    ∀ t, noMatchF q t = true → noMatchF p t = true
  | .nil, _ => rfl
  | .cons (.text s) rest, h => by
    simp only [noMatchF] at h ⊢
    exact noMatchF_mono p q himp rest h
  | .cons (.elem tg a c) rest, h => by
    simp only [noMatchF, Bool.and_eq_true, Bool.not_eq_true'] at h ⊢
    obtain ⟨⟨hq, hc⟩, hrest⟩ := h
    refine ⟨⟨?_, noMatchF_mono p q himp c hc⟩, noMatchF_mono p q himp rest hrest⟩
    cases hp : p tg a
    · rfl
    · rw [himp tg a hp] at hq; exact hq

theorem unwrapAllF_preserve_noMatch (p q : String → List (String × String) → Bool) :
    ∀ t, noMatchF q t = true → noMatchF q (unwrapAllF p t) = true
  | .nil, _ => rfl
  | .cons (.text s) rest, h => by
    simp only [noMatchF, unwrapAllF] at h ⊢
    exact unwrapAllF_preserve_noMatch p q rest h
  | .cons (.elem tg a c) rest, h => by
    simp only [noMatchF, Bool.and_eq_true, Bool.not_eq_true'] at h
    obtain ⟨⟨hq, hc⟩, hrest⟩ := h
    cases hp : p tg a
    · simp [unwrapAllF, hp, noMatchF, hq,
        unwrapAllF_preserve_noMatch p q c hc, unwrapAllF_preserve_noMatch p q rest hrest]
    · simp [unwrapAllF, hp, noMatchF_append,
        unwrapAllF_preserve_noMatch p q c hc, unwrapAllF_preserve_noMatch p q rest hrest]

theorem stripTablesF_preserve_noMatch (p : String → List (String × String) → Bool)
    (hp : ∀ a, p "table" a = false) :
    ∀ t, noMatchF p t = true → noMatchF p (stripTablesF t) = true
  | .nil, _ => rfl
  | .cons (.text s) rest, h => by
    simp only [noMatchF, stripTablesF] at h ⊢
    exact stripTablesF_preserve_noMatch p hp rest h
  | .cons (.elem tg a c) rest, h => by
    simp only [noMatchF, Bool.and_eq_true, Bool.not_eq_true'] at h
    obtain ⟨⟨hq, hc⟩, hrest⟩ := h
    cases hcond : (tg == "table" && !hasKey "id" a)
    · simp [stripTablesF, hcond, noMatchF, hq,
        stripTablesF_preserve_noMatch p hp c hc, stripTablesF_preserve_noMatch p hp rest hrest]
    · have htg : tg = "table" := by
        have := (Bool.and_eq_true _ _).mp hcond
        exact beq_iff_eq.mp this.1
      have hk : hasKey "id" a = false := by
        have := (Bool.and_eq_true _ _).mp hcond
        simpa using this.2
      subst htg
      simp [stripTablesF, hcond, hk, noMatchF, hp,
        stripTablesF_preserve_noMatch p hp c hc, stripTablesF_preserve_noMatch p hp rest hrest]

theorem removeAllF_id_of_noMatch (p : String → List (String × String) → Bool) :
    ∀ t, noMatchF p t = true → removeAllF p t = t
  | .nil, _ => rfl
  | .cons (.text s) rest, h => by
    simp only [noMatchF] at h
    simp [removeAllF, removeAllF_id_of_noMatch p rest h]
  | .cons (.elem tg a c) rest, h => by
    simp only [noMatchF, Bool.and_eq_true, Bool.not_eq_true'] at h
    obtain ⟨⟨hq, hc⟩, hrest⟩ := h
    simp [removeAllF, hq, removeAllF_id_of_noMatch p c hc,
      removeAllF_id_of_noMatch p rest hrest]

theorem unwrapAllF_id_of_noMatch (p : String → List (String × String) → Bool) :
    ∀ t, noMatchF p t = true → unwrapAllF p t = t
  | .nil, _ => rfl
  | .cons (.text s) rest, h => by
    simp only [noMatchF] at h
    simp [unwrapAllF, unwrapAllF_id_of_noMatch p rest h]
  | .cons (.elem tg a c) rest, h => by
    simp only [noMatchF, Bool.and_eq_true, Bool.not_eq_true'] at h
    obtain ⟨⟨hq, hc⟩, hrest⟩ := h
    simp [unwrapAllF, hq, unwrapAllF_id_of_noMatch p c hc,
      unwrapAllF_id_of_noMatch p rest hrest]

theorem stripTablesF_tablesNorm : ∀ t, tablesNormF (stripTablesF t) = true
  | .nil => rfl
  | .cons (.text s) rest => by
    simp [stripTablesF, tablesNormF, stripTablesF_tablesNorm rest]
  | .cons (.elem tg a c) rest => by
    cases hcond : (tg == "table" && !hasKey "id" a)
    · simp only [stripTablesF, hcond, Bool.false_eq_true, if_false, tablesNormF,
        Bool.and_eq_true]
      refine ⟨⟨?_, stripTablesF_tablesNorm c⟩, stripTablesF_tablesNorm rest⟩
      cases htg : tg == "table"
      · simp
      · cases hk : hasKey "id" a
        · rw [htg, hk] at hcond; simp at hcond
        · simp [hk]
    · simp [stripTablesF, hcond, tablesNormF, stripTablesF_tablesNorm c,
        stripTablesF_tablesNorm rest]

theorem stripTablesF_id_of_norm : ∀ t, tablesNormF t = true → stripTablesF t = t
  | .nil, _ => rfl
  | .cons (.text s) rest, h => by
    simp only [tablesNormF] at h
    simp [stripTablesF, stripTablesF_id_of_norm rest h]
  | .cons (.elem tg a c) rest, h => by
    simp only [tablesNormF, Bool.and_eq_true] at h
    obtain ⟨⟨hclause, hc⟩, hrest⟩ := h
    cases hcond : (tg == "table" && !hasKey "id" a)
    · simp [stripTablesF, hcond, stripTablesF_id_of_norm c hc,
        stripTablesF_id_of_norm rest hrest]
    · obtain ⟨htg, hk⟩ := (Bool.and_eq_true _ _).mp hcond
      have hk' : hasKey "id" a = false := by simpa using hk
      have hempty : a.isEmpty = true := by
        rw [htg, hk'] at hclause
        simpa using hclause
      have ha : a = [] := List.isEmpty_iff.mp hempty
      subst ha
      simp [stripTablesF, hcond, stripTablesF_id_of_norm c hc,
        stripTablesF_id_of_norm rest hrest]

theorem nodeOccursF_append (tg : String) (ats : List (String × String)) :
    ∀ x y, nodeOccursF tg ats (x.append y)
      = (nodeOccursF tg ats x || nodeOccursF tg ats y)
  | .nil, _ => rfl
  | .cons (.text s) rest, y => by
    simp [HtmlList.append, nodeOccursF, nodeOccursF_append tg ats rest y]
  | .cons (.elem t a c) rest, y => by
    simp [HtmlList.append, nodeOccursF, nodeOccursF_append tg ats rest y, Bool.or_assoc]

theorem removeAllF_occurs (p : String → List (String × String) → Bool)
    (tg : String) (ats : List (String × String)) :
    ∀ t, nodeOccursF tg ats (removeAllF p t) = true → nodeOccursF tg ats t = true
  | .nil, h => h
  | .cons (.text s) rest, h => by
    simp only [removeAllF, nodeOccursF] at h ⊢
    exact removeAllF_occurs p tg ats rest h
  | .cons (.elem t a c) rest, h => by
    cases hp : p t a
    · rw [removeAllF, hp] at h
      simp only [Bool.false_eq_true, if_false, nodeOccursF, Bool.or_eq_true] at h ⊢
      rcases h with (hhead | hc) | hrest
      · exact Or.inl (Or.inl hhead)
      · exact Or.inl (Or.inr (removeAllF_occurs p tg ats c hc))
      · exact Or.inr (removeAllF_occurs p tg ats rest hrest)
    · rw [removeAllF, hp] at h
      simp only [if_true, nodeOccursF, Bool.or_eq_true] at h ⊢
      exact Or.inr (removeAllF_occurs p tg ats rest h)

theorem unwrapAllF_occurs (p : String → List (String × String) → Bool)
    (tg : String) (ats : List (String × String)) :
    ∀ t, nodeOccursF tg ats (unwrapAllF p t) = true → nodeOccursF tg ats t = true
  | .nil, h => h
  | .cons (.text s) rest, h => by
    simp only [unwrapAllF, nodeOccursF] at h ⊢
    exact unwrapAllF_occurs p tg ats rest h
  | .cons (.elem t a c) rest, h => by
    cases hp : p t a
    · rw [unwrapAllF, hp] at h
      simp only [Bool.false_eq_true, if_false, nodeOccursF, Bool.or_eq_true] at h ⊢
      rcases h with (hhead | hc) | hrest
      · exact Or.inl (Or.inl hhead)
      · exact Or.inl (Or.inr (unwrapAllF_occurs p tg ats c hc))
      · exact Or.inr (unwrapAllF_occurs p tg ats rest hrest)
    · rw [unwrapAllF, hp] at h
      simp only [if_true, nodeOccursF_append, Bool.or_eq_true] at h
      simp only [nodeOccursF, Bool.or_eq_true]
      rcases h with hc | hrest
      · exact Or.inl (Or.inr (unwrapAllF_occurs p tg ats c hc))
      · exact Or.inr (unwrapAllF_occurs p tg ats rest hrest)

theorem stripTablesF_occurs (tg : String) (ats : List (String × String)) :
    ∀ t, nodeOccursF tg ats (stripTablesF t) = true →
      nodeOccursF tg ats t = true ∨ (tg = "table" ∧ ats = [])
  | .nil, h => by simp [nodeOccursF] at h
  | .cons (.text s) rest, h => by
    simp only [stripTablesF, nodeOccursF] at h ⊢
    exact stripTablesF_occurs tg ats rest h
  | .cons (.elem t a c) rest, h => by
    cases hcond : (t == "table" && !hasKey "id" a)
    · rw [stripTablesF, hcond] at h
      simp only [Bool.false_eq_true, if_false, nodeOccursF, Bool.or_eq_true] at h
      simp only [nodeOccursF, Bool.or_eq_true]
      rcases h with (hhead | hc) | hrest
      · exact Or.inl (Or.inl (Or.inl hhead))
      · rcases stripTablesF_occurs tg ats c hc with hin | hr
        · exact Or.inl (Or.inl (Or.inr hin))
        · exact Or.inr hr
      · rcases stripTablesF_occurs tg ats rest hrest with hin | hr
        · exact Or.inl (Or.inr hin)
        · exact Or.inr hr
    · rw [stripTablesF, hcond] at h
      simp only [if_true, nodeOccursF, Bool.or_eq_true] at h
      simp only [nodeOccursF, Bool.or_eq_true]
      rcases h with (hhead | hc) | hrest
      · obtain ⟨hteq, haeq⟩ := (Bool.and_eq_true _ _).mp hhead
        have ht : t = tg := beq_iff_eq.mp hteq
        have ha : ([] : List (String × String)) = ats := by
          have := haeq; exact beq_iff_eq.mp this
        right
        obtain ⟨htable, _⟩ := (Bool.and_eq_true _ _).mp hcond
        exact ⟨ht ▸ beq_iff_eq.mp htable ▸ rfl, ha.symm⟩
      · rcases stripTablesF_occurs tg ats c hc with hin | hr
        · exact Or.inl (Or.inl (Or.inr hin))
        · exact Or.inr hr
      · rcases stripTablesF_occurs tg ats rest hrest with hin | hr
        · exact Or.inl (Or.inr hin)
        · exact Or.inr hr

theorem anyDivClass_table_false (cs : List String) (a : List (String × String)) :
    anyDivClass cs "table" a = false := by
  have hfalse : (("table" : String) == "div") = false := by decide
  simp [anyDivClass, divWithClass, hfalse]

theorem cleanHtmlF_eq (t : HtmlList) :
    cleanHtmlF t = stripTablesF (unwrapAllF (anyDivClass classes_to_replace)
      (removeAllF (anyDivClass classes_to_remove) t)) := by
  rw [cleanHtmlF, removeClassesPass_eq, unwrapClassesPass_eq]

theorem cleanHtmlF_noMatch_remove (t : HtmlList) :
    noMatchF (anyDivClass classes_to_remove) (cleanHtmlF t) = true := by
  rw [cleanHtmlF_eq]
  exact stripTablesF_preserve_noMatch _ (anyDivClass_table_false _) _
    (unwrapAllF_preserve_noMatch _ _ _ (removeAllF_noMatch _ t))

theorem cleanHtmlF_noMatch_replace (t : HtmlList) :
    noMatchF (anyDivClass classes_to_replace) (cleanHtmlF t) = true := by
  rw [cleanHtmlF_eq]
  exact stripTablesF_preserve_noMatch _ (anyDivClass_table_false _) _
    (unwrapAllF_noMatch _ _)

theorem cleanHtmlF_tablesNorm (t : HtmlList) : tablesNormF (cleanHtmlF t) = true := by
  rw [cleanHtmlF_eq]
  exact stripTablesF_tablesNorm _

theorem cleanHtmlF_inv (t : HtmlList) : cleanedInvF (cleanHtmlF t) = true := by
  simp [cleanedInvF, cleanHtmlF_noMatch_remove, cleanHtmlF_noMatch_replace,
    cleanHtmlF_tablesNorm]

theorem cleanHtmlF_id_of_inv (u : HtmlList) (h : cleanedInvF u = true) : cleanHtmlF u = u := by
  simp only [cleanedInvF, Bool.and_eq_true] at h
  obtain ⟨⟨h1, h2⟩, h3⟩ := h
  rw [cleanHtmlF_eq, removeAllF_id_of_noMatch _ u h1, unwrapAllF_id_of_noMatch _ u h2,
    stripTablesF_id_of_norm u h3]

theorem cleanHtmlF_occurs (t : HtmlList) (tg : String) (ats : List (String × String))
    (h : nodeOccursF tg ats (cleanHtmlF t) = true) :
    nodeOccursF tg ats t = true ∨ (tg = "table" ∧ ats = []) := by
  rw [cleanHtmlF_eq] at h
  rcases stripTablesF_occurs tg ats _ h with h1 | h2
  · exact Or.inl (removeAllF_occurs _ tg ats _ (unwrapAllF_occurs _ tg ats _ h1))
  · exact Or.inr h2


/-! ### Small auxiliary facts used by the claim theorems -/

theorem isPrefixOf_self_append : ∀ (u r : List Char), u.isPrefixOf (u ++ r) = true
  | [], _ => by simp [List.isPrefixOf]
  | c :: u', r => by simp [List.isPrefixOf, isPrefixOf_self_append u' r]

theorem baseName_no_slash (l : List Char) (h : ∀ c ∈ l, (c == '/') = false) :
    baseName l = l := by
  rw [baseName, splitOnP_eq_single _ l h]
  rfl

/-! ### The claims -/

/-- C1: kernel resolution.  For every requested kernel name, if the name is
in the locally discoverable set the resolver returns it unchanged; otherwise
it returns the fixed fallback `"python3"`; and in all cases it returns one of
those two values (it is total, so it never raises). -/
theorem kernel_resolution (availableKernels : List String) (requiredKernel : String) :
    (requiredKernel ∈ availableKernels →
      kernel availableKernels requiredKernel = requiredKernel) ∧
    (requiredKernel ∉ availableKernels →
      kernel availableKernels requiredKernel = "python3") ∧
    (kernel availableKernels requiredKernel = requiredKernel ∨
      kernel availableKernels requiredKernel = "python3") := by
  refine ⟨fun h => by simp [kernel, h], fun h => by simp [kernel, h], ?_⟩
  by_cases h : requiredKernel ∈ availableKernels
  · left; simp [kernel, h]
  · right; simp [kernel, h]

/-- Witness for C1 at concrete inputs. -/
theorem kernel_resolution_witness :
    kernel ["julia", "python3"] "julia" = "julia" ∧ kernel ["python3"] "ir" = "python3" :=
  ⟨(kernel_resolution ["julia", "python3"] "julia").1 (by decide),
   (kernel_resolution ["python3"] "ir").2.1 (by decide)⟩

/-- C2: cleaning is idempotent.  The tree transformation of `clean_html` is
idempotent, the blank-line pass is idempotent, and more precisely cleaning
is the identity on any tree that already satisfies the cleaned-shape
invariant (the targeted classes are absent and the tables are normalized),
which is what re-running on already-cleaned input produces.  (The
parse/serialize round-trip between the two runs is the external HTML
parser's contract; the invariant only constrains element nodes, which the
blank-line pass does not touch.) -/
theorem clean_html_idempotent :
    (∀ t : HtmlList, cleanHtmlF (cleanHtmlF t) = cleanHtmlF t) ∧
    (∀ s : List Char, removeBlankLines (removeBlankLines s) = removeBlankLines s) ∧
    (∀ u : HtmlList, cleanedInvF u = true → cleanHtmlF u = u) :=
  ⟨fun t => cleanHtmlF_id_of_inv _ (cleanHtmlF_inv t), removeBlankLines_idem,
   fun u h => cleanHtmlF_id_of_inv u h⟩

/-- Witness for C2 at a concrete cleaned tree. -/
theorem clean_html_idempotent_witness :
    cleanHtmlF (HtmlList.cons (Html.text "x") .nil) = HtmlList.cons (Html.text "x") .nil :=
  clean_html_idempotent.2.2 _ rfl

/-- C3 counterexample: the cleaning loops only query `findAll("div", ..)`,
so a non-`div` element carrying the raw-text-output class `output_text`
survives `clean_html` untouched — contradicting the claim that after
cleaning no element, regardless of its tag, carries these classes. -/
theorem clean_html_span_counterexample :
    cleanHtmlF exSpan = exSpan ∧
      anyElemWithClassF "output_text" (cleanHtmlF exSpan) = true :=
  ⟨rfl, rfl⟩

/-- C3 (amended): after `clean_html`, no `div` element of the resulting
document carries any of the nine wrapper class names nor the
raw-text-output (`output_text`) or `prompt` classes, regardless of its
position; matched `div`s of the deletion set are removed with their
descendants and matched `div`s of the unwrap set are replaced by their
children (the deletion/unwrap behaviour is the definition of `removeAllF`
and `unwrapAllF`).  The class-driven deletion and unwrap loops match only
`div` elements (second conjunct), so an element with another tag may keep
these classes — it is subject only to the separate table normalization. -/
theorem clean_html_only_divs_cleaned (t : HtmlList) :
    ((classes_to_remove ++ classes_to_replace).all
      (fun cl => noMatchF (divWithClass cl) (cleanHtmlF t))) = true ∧
    (∀ (cl tag : String) (attrs : List (String × String)),
      tag ≠ "div" → divWithClass cl tag attrs = false) := by
  constructor
  · refine List.all_eq_true.mpr ?_
    intro cl hcl
    rcases List.mem_append.mp hcl with h1 | h1
    · refine noMatchF_mono _ _ ?_ _ (cleanHtmlF_noMatch_remove t)
      intro tg a h
      exact List.any_eq_true.mpr ⟨cl, h1, h⟩
    · refine noMatchF_mono _ _ ?_ _ (cleanHtmlF_noMatch_replace t)
      intro tg a h
      exact List.any_eq_true.mpr ⟨cl, h1, h⟩
  · intro cl tag attrs h
    have htag : (tag == "div") = false := beq_eq_false_iff_ne.mpr h
    simp [divWithClass, htag]

/-- Witness for C3 at a concrete non-`div` element. -/
theorem clean_html_only_divs_cleaned_witness :
    divWithClass "output_text" "span" [("class", "output_text")] = false :=
  (clean_html_only_divs_cleaned HtmlList.nil).2 "output_text" "span"
    [("class", "output_text")] (by decide)

/-- C4 counterexample: a table with an explicit `id` is not left unchanged
by `clean_html` — the normalization recurses into its descendants, so an
inner id-less table loses its `dataframe` class. -/
theorem clean_html_table_counterexample :
    cleanHtmlF exTable
        = .cons (.elem "table" [("id", "t")] (.cons (.elem "table" [] .nil) .nil)) .nil ∧
      cleanHtmlF exTable ≠ exTable := by
  refine ⟨rfl, fun h => ?_⟩
  have h2 := congrArg (anyElemWithClassF "dataframe") h
  rw [show anyElemWithClassF "dataframe" (cleanHtmlF exTable) = false from rfl,
    show anyElemWithClassF "dataframe" exTable = true from rfl] at h2
  exact Bool.noConfusion h2

/-- C4 (amended): after `clean_html` every table element that lacks an `id`
attribute has zero attributes, and every element node of the result — in
particular every table with an `id` — still carries exactly a tag/attribute
pair occurring in the input, unless it is a table whose attributes were
stripped to zero; so id-tables keep their own attributes, while their
descendants may still be rewritten by the other cleaning rules. -/
theorem clean_html_table_normalization (t : HtmlList) :
    tablesNormF (cleanHtmlF t) = true ∧
      ∀ tg ats, nodeOccursF tg ats (cleanHtmlF t) = true →
        nodeOccursF tg ats t = true ∨ (tg = "table" ∧ ats = []) :=
  ⟨cleanHtmlF_tablesNorm t, fun tg ats h => cleanHtmlF_occurs t tg ats h⟩

/-- Witness for C4 at a concrete id-table. -/
theorem clean_html_table_normalization_witness :
    nodeOccursF "table" [("id", "t")]
        (HtmlList.cons (Html.elem "table" [("id", "t")] .nil) .nil) = true ∨
      ("table" = "table" ∧ [("id", "t")] = ([] : List (String × String))) :=
  (clean_html_table_normalization
    (HtmlList.cons (Html.elem "table" [("id", "t")] .nil) .nil)).2
    "table" [("id", "t")] rfl

/-- C5 counterexample: the constructor derives the report name with
`name.replace("ipynb", "html")`, which replaces every occurrence of the
substring, not only the extension; for `ipynb_tutorial.ipynb` the claimed
path `out/ipynb_tutorial.html` differs from the actual one. -/
theorem report_path_counterexample :
    (Report.init "ipynb_tutorial.ipynb" "out").report_path = "out/html_tutorial.html" ∧
      ("out/html_tutorial.html" : String) ≠ "out/ipynb_tutorial.html" := by
  exact ⟨by decide, by decide⟩

/-- C5 (amended): the report path is
`<report_folder>/<filename with every occurrence of "ipynb" replaced by
"html">`; it always lies under the configured output directory, and for a
filename `<stem>.ipynb` in which `"ipynb"` does not occur earlier, it
equals `<report_folder>/<stem>.html` (the derivation is a function of the
inputs, hence deterministic). -/
theorem report_path_derivation :
    (∀ folder nbPath : String,
      ((folder ++ "/").data).isPrefixOf (Report.init nbPath folder).report_path.data
        = true) ∧
    (∀ (folder : String) (stem : List Char),
      stem.all (fun c => !(c == '/')) = true →
      noEarlyOcc "ipynb".data stem ".ipynb".data = true →
      (Report.init (String.mk (stem ++ ".ipynb".data)) folder).report_path
        = String.mk (folder.data ++ '/' :: (stem ++ ".html".data))) := by
  constructor
  · intro folder nbPath
    obtain ⟨fl⟩ := folder
    show (fl ++ ['/']).isPrefixOf
      (reportPathChars fl (baseName nbPath.data)) = true
    rw [reportPathChars,
      show fl ++ '/' :: reportFileName (baseName nbPath.data)
        = (fl ++ ['/']) ++ reportFileName (baseName nbPath.data) from by simp]
    exact isPrefixOf_self_append _ _
  · intro folder stem hslash hocc
    have hdot : ∀ c ∈ ".ipynb".data, (c == '/') = false := by decide
    have hname : baseName (stem ++ ".ipynb".data) = stem ++ ".ipynb".data := by
      apply baseName_no_slash
      intro c hc
      rcases List.mem_append.mp hc with h1 | h1
      · simpa using List.all_eq_true.mp hslash c h1
      · exact hdot c h1
    show String.mk (reportPathChars folder.data (baseName (stem ++ ".ipynb".data)))
      = String.mk (folder.data ++ '/' :: (stem ++ ".html".data))
    rw [hname, reportPathChars, reportFileName_stem stem hocc]

/-- Witness for C5 at a concrete stem. -/
theorem report_path_derivation_witness :
    (Report.init (String.mk ("daily_summary".data ++ ".ipynb".data)) "out").report_path
      = String.mk ("out".data ++ '/' :: ("daily_summary".data ++ ".html".data)) :=
  report_path_derivation.2 "out" "daily_summary".data (by decide) (by decide)

/-- C6: title resolution.  If the executed notebook's metadata has a title
`X`, the renderer receives `X`, overriding the default; otherwise the
renderer receives the constructor's default, which is the notebook filename
with `.ipynb` stripped and underscores replaced by spaces
(`daily_summary.ipynb` gives `daily summary`; in general, for a stem with
no earlier `.ipynb` occurrence, the default is the stem with underscores
replaced by spaces). -/
theorem title_resolution :
    (∀ (nb : Notebook) (d x : String), nb.title = some x → resolveTitle nb d = x) ∧
    (∀ (nb : Notebook) (d : String), nb.title = none → resolveTitle nb d = d) ∧
    (∀ nbPath folder : String,
      (Report.init nbPath folder).title = String.mk (titleOf (baseName nbPath.data))) ∧
    titleOf "daily_summary.ipynb".data = "daily summary".data ∧
    (∀ stem : List Char, noEarlyOcc ".ipynb".data stem ".ipynb".data = true →
      titleOf (stem ++ ".ipynb".data) = underscoreToSpace stem) := by
  refine ⟨?_, ?_, ?_, ?_, ?_⟩
  · intro nb d x h; simp [resolveTitle, h]
  · intro nb d h; simp [resolveTitle, h]
  · intro nbPath folder; rfl
  · decide
  · exact titleOf_stem

/-- Witness for C6 at concrete notebooks and a concrete stem. -/
theorem title_resolution_witness :
    resolveTitle ⟨"python3", some "X", []⟩ "d" = "X" ∧
    resolveTitle ⟨"python3", none, []⟩ "d" = "d" ∧
    titleOf ("daily_summary".data ++ ".ipynb".data) = underscoreToSpace "daily_summary".data :=
  ⟨title_resolution.1 _ _ _ rfl, title_resolution.2.1 _ _ rfl,
   title_resolution.2.2.2.2 _ (by decide)⟩

/-- C7: unwrap order independence.  For every HTML tree and every
permutation of the nine wrapper class names, running the unwrap passes in
the permuted order yields the same tree as the code's order: each pass only
unwraps (no attribute changes), so the nine passes jointly equal a single
unwrap over the union predicate, which only depends on the set of names. -/
theorem unwrap_order_independent (perm : List String) (t : HtmlList)
    (h : List.Perm perm classes_to_replace) :
    unwrapClassesPass perm t = unwrapClassesPass classes_to_replace t := by
  rw [unwrapClassesPass_eq, unwrapClassesPass_eq]
  have hany : anyDivClass perm = anyDivClass classes_to_replace := by
    funext tg a
    simp only [anyDivClass]
    by_cases hex : ∃ c ∈ classes_to_replace, divWithClass c tg a = true
    · obtain ⟨c, hc, hdc⟩ := hex
      rw [List.any_eq_true.mpr ⟨c, h.mem_iff.mpr hc, hdc⟩,
        List.any_eq_true.mpr ⟨c, hc, hdc⟩]
    · have h1 : perm.any (fun c => divWithClass c tg a) = false := by
        cases hval : perm.any (fun c => divWithClass c tg a)
        · rfl
        · obtain ⟨c, hcp, hdc⟩ := List.any_eq_true.mp hval
          exact absurd ⟨c, h.mem_iff.mp hcp, hdc⟩ hex
      have h2 : classes_to_replace.any (fun c => divWithClass c tg a) = false := by
        cases hval : classes_to_replace.any (fun c => divWithClass c tg a)
        · rfl
        · obtain ⟨c, hcp, hdc⟩ := List.any_eq_true.mp hval
          exact absurd ⟨c, hcp, hdc⟩ hex
      rw [h1, h2]
  rw [hany]

/-- Witness for C7 at the reversed order and a concrete tree. -/
theorem unwrap_order_independent_witness :
    unwrapClassesPass ["output_area", "output", "output_wrapper", "output_prompt",
        "rendered_html", "inner_cell", "cell", "container", "border-box-sizing"]
      (.cons (.elem "div" [("class", "cell")] (.cons (.text "x") .nil)) .nil)
      = unwrapClassesPass classes_to_replace
        (.cons (.elem "div" [("class", "cell")] (.cons (.text "x") .nil)) .nil) :=
  unwrap_order_independent _ _ (by decide)

/-- C8: success path of `notebook_to_report`.  When the temporary executed
notebook exists, the method returns successfully, its event trace is
exactly a verbatim write of the exporter's HTML string to the report path
followed by the unlink of the temporary notebook, and in the final
filesystem the temporary executed-notebook artifact is gone (and, whenever
the two paths differ, the report path holds exactly the exporter's
string). -/
theorem notebook_to_report_success (exporter : Notebook → String → String)
    (r : Report) (version : Nat) (template_path : Option String) (fs : FS) (nb : Notebook)
    (h : lookupFS fs r.temporary_notebook = some (.nb nb)) :
    Report.notebook_to_report exporter r version template_path fs
      = (.ok (),
        eraseFS r.temporary_notebook
          (insertFS r.report_path (.text (exporter nb (resolveTitle nb r.title))) fs),
        [.write r.report_path (.text (exporter nb (resolveTitle nb r.title))) none,
          .unlink r.temporary_notebook]) ∧
    lookupFS
      (eraseFS r.temporary_notebook
        (insertFS r.report_path (.text (exporter nb (resolveTitle nb r.title))) fs))
      r.temporary_notebook = none ∧
    (r.temporary_notebook ≠ r.report_path →
      lookupFS
        (eraseFS r.temporary_notebook
          (insertFS r.report_path (.text (exporter nb (resolveTitle nb r.title))) fs))
        r.report_path = some (.text (exporter nb (resolveTitle nb r.title)))) := by
  refine ⟨by simp [Report.notebook_to_report, h], lookupFS_erase_self _ _, ?_⟩
  intro hne
  rw [lookupFS_erase_ne _ _ _ hne, lookupFS_insert_self]

/-- Witness for C8 at a concrete report and filesystem. -/
theorem notebook_to_report_success_witness :
    lookupFS ((Report.notebook_to_report (fun _ _ => "<html/>") (Report.init "nb.ipynb" "out")
        4 none [("/tmp/nb.ipynb", FileContent.nb ⟨"python3", none, []⟩)]).2.1)
      "/tmp/nb.ipynb" = none ∧
    lookupFS ((Report.notebook_to_report (fun _ _ => "<html/>") (Report.init "nb.ipynb" "out")
        4 none [("/tmp/nb.ipynb", FileContent.nb ⟨"python3", none, []⟩)]).2.1)
      "out/nb.html" = some (.text "<html/>") := by
  obtain ⟨he, hnone, himp⟩ := notebook_to_report_success (fun _ _ => "<html/>")
    (Report.init "nb.ipynb" "out") 4 none
    [("/tmp/nb.ipynb", FileContent.nb ⟨"python3", none, []⟩)] ⟨"python3", none, []⟩ (by decide)
  have htmp : (Report.init "nb.ipynb" "out").temporary_notebook = "/tmp/nb.ipynb" := by decide
  have hrep : (Report.init "nb.ipynb" "out").report_path = "out/nb.html" := by decide
  constructor
  · rw [he]
    rw [htmp] at hnone
    exact hnone
  · rw [he]
    have h3 := himp (by decide)
    rw [hrep] at h3
    exact h3

/-- C9: failure propagation in `execute_notebook`.  If the source notebook
file does not exist, the file-not-found condition is returned unchanged and
the filesystem is untouched; if the execution engine fails on a cell, that
exact error propagates, the filesystem is untouched (in particular any
pre-existing temporary notebook is not cleaned up), and no retry or
recovery happens (the method performs no filesystem event on either failure
path). -/
theorem execute_notebook_failure (availableKernels : List String)
    (preprocess : Notebook → String → Except Err Notebook)
    (r : Report) (version timeout : Nat) (fs : FS) :
    (lookupFS fs r.notebook_path = none →
      Report.execute_notebook availableKernels preprocess r version timeout fs
        = (.error .fileNotFound, fs, [])) ∧
    (∀ (nb : Notebook) (e : Err),
      lookupFS fs r.notebook_path = some (.nb nb) →
      preprocess nb (kernel availableKernels nb.kernelspecName) = .error e →
      Report.execute_notebook availableKernels preprocess r version timeout fs
        = (.error e, fs, [])) := by
  constructor
  · intro h
    simp [Report.execute_notebook, h]
  · intro nb e h hpre
    simp [Report.execute_notebook, h, hpre]

/-- Witness for C9 on a missing source file and on a failing cell. -/
theorem execute_notebook_failure_witness :
    Report.execute_notebook [] (fun _ _ => .error (.execError "boom"))
        (Report.init "missing.ipynb" "out") 4 3600 [] = (.error .fileNotFound, [], []) ∧
    Report.execute_notebook ["python3"] (fun _ _ => .error (.execError "boom"))
        (Report.init "nb.ipynb" "out") 4 3600
        [("nb.ipynb", FileContent.nb ⟨"python3", none, []⟩)]
      = (.error (.execError "boom"),
        [("nb.ipynb", FileContent.nb ⟨"python3", none, []⟩)], []) :=
  ⟨(execute_notebook_failure [] (fun _ _ => .error (.execError "boom"))
      (Report.init "missing.ipynb" "out") 4 3600 []).1 (by decide),
   (execute_notebook_failure ["python3"] (fun _ _ => .error (.execError "boom"))
      (Report.init "nb.ipynb" "out") 4 3600
      [("nb.ipynb", FileContent.nb ⟨"python3", none, []⟩)]).2
     ⟨"python3", none, []⟩ (.execError "boom") (by decide) rfl⟩

/-- C10: blank-line removal and UTF-8 write-back.  On a readable report
file, `clean_html` succeeds, performs exactly one write — back to the same
report path, with the explicit `"utf-8"` encoding — and the written
document contains no blank line (every line of the result is nonempty, or
the result is the empty document). -/
theorem clean_html_output (parse : String → HtmlList) (serialize : HtmlList → String)
    (r : Report) (fs : FS) (content : String)
    (h : lookupFS fs r.report_path = some (.text content)) :
    ∃ out : String,
      Report.clean_html parse serialize r fs
        = (.ok (), insertFS r.report_path (.text out) fs,
          [.write r.report_path (.text out) (some "utf-8")]) ∧
      (out.data = [] ∨ (splitNl out.data).all (fun l => !l.isEmpty) = true) := by
  refine ⟨String.mk (removeBlankLines (serialize (cleanHtmlF (parse content))).data),
    ?_, ?_⟩
  · simp [Report.clean_html, h]
  · exact removeBlankLines_no_blank (serialize (cleanHtmlF (parse content))).data

/-- Witness for C10 at a concrete report file. -/
theorem clean_html_output_witness :
    ∃ out : String,
      Report.clean_html (fun _ => HtmlList.nil) (fun _ => "a\n\nb")
          (Report.init "nb.ipynb" "out") [("out/nb.html", FileContent.text "x")]
        = (.ok (),
          insertFS (Report.init "nb.ipynb" "out").report_path (.text out)
            [("out/nb.html", FileContent.text "x")],
          [.write (Report.init "nb.ipynb" "out").report_path (.text out) (some "utf-8")]) ∧
      (out.data = [] ∨ (splitNl out.data).all (fun l => !l.isEmpty) = true) :=
  clean_html_output (fun _ => HtmlList.nil) (fun _ => "a\n\nb")
    (Report.init "nb.ipynb" "out") [("out/nb.html", FileContent.text "x")] "x" (by decide)

end NotebookReport
